import Mathlib

/-!
Verification of the `pymodbus` payload codec (`src/pymodbus/payload.py`):
`BinaryPayloadBuilder` and `BinaryPayloadDecoder`.

Modelling conventions:
* A Python `bytes` value is a `List Nat` whose elements are below 256; the
  bound is carried as a hypothesis where it matters.
* `struct.pack`/`struct.unpack` are modelled at the byte level.  `unpack`
  raises `struct.error` when the buffer length does not match the format
  size; this is modelled with `Except PackError`.  `pack` raises on
  out-of-range values; encode inputs are restricted to the representable
  range by hypotheses instead, and the definitions use an explicit `% 256`
  per byte which agrees with `struct.pack` on every in-range value.
* Python slices `s[a:b]` (with `0 ≤ a ≤ b`) are `(s.drop a).take b - a`
  shaped expressions; Python slicing clamps at the end of the sequence and
  so do `List.drop`/`List.take`.
* A list comprehension `[s[i:i+n] for i in range(0, len(s), n)]` produces
  the consecutive `n`-sized slices of `s` with a shorter final slice; it is
  modelled by the structurally recursive chunking functions `chunk2` and
  `chunk8` below (the source only chunks with `n = 2` and `n = 8`).
* IEEE-754 float values of a given width are in bijection with their
  bit patterns, and `struct.pack("!e"/"!f"/"!d", x)` writes exactly the
  big-endian bit pattern of `x` at that width (likewise `unpack` reads it
  back).  Float values are therefore modelled by their bit patterns
  (`Nat` below `2^16`, `2^32`, `2^64`); packing and unpacking a pattern is
  byte shuffling only, which is what the code under verification does.
-/

/-- The byte/word order marks from `pymodbus.constants.Endian`
(`">"` and `"<"`; the `Auto` mark is out of the modelled scope). -/
inductive Endian where
  | big
  | little
deriving DecidableEq, Repr

/-- The error raised by `struct.unpack` on a buffer whose length does not
match the format string (Python's `struct.error`). -/
inductive PackError where
  | wrongSize
deriving DecidableEq, Repr

/-- The error raised by `fromRegisters`/`fromCoils` on a non-list argument
(`pymodbus.exceptions.ParameterException`). -/
inductive ParamError where
  | invalidInput
deriving DecidableEq, Repr

/-- A dynamically typed argument to `fromRegisters`/`fromCoils`: either a
Python `list` of values, or a non-list value such as a single integer
(the shapes the spec's error-handling clause distinguishes). -/
inductive PySeq (α : Type) where
  | ofList (l : List α)
  | ofScalar (n : Int)
deriving DecidableEq

/-- Consecutive 2-element chunks of a list, with a shorter final chunk:
the comprehension `[s[i:i+2] for i in range(0, len(s), 2)]`. -/
def chunk2 {α : Type} : List α → List (List α)
  | [] => []
  | [a] => [[a]]
  | a :: b :: rest => [a, b] :: chunk2 rest

/-- Consecutive 8-element chunks of a list, with a shorter final chunk:
the comprehension in `BinaryPayloadDecoder.bit_chunks` with `size = 8`. -/
def chunk8 {α : Type} : List α → List (List α)
  | [] => []
  | a :: b :: c :: d :: e :: f :: g :: h :: rest => [a, b, c, d, e, f, g, h] :: chunk8 rest
  | l => [l]

/-- The `w` big-endian bytes of a natural number: `struct.pack` of an
unsigned value with a big-endian (`"!"`/`">"`) format of byte width `w`.
Agrees with `struct.pack` whenever `v < 256 ^ w` (out-of-range values make
`struct.pack` raise instead). -/
def natToBE : Nat → Nat → List Nat
  | 0, _ => []
  | w + 1, v => natToBE w (v / 256) ++ [v % 256]

/-- The natural number denoted by a big-endian byte string: the value
`struct.unpack` reads from it with an unsigned big-endian format. -/
def beToNat (bs : List Nat) : Nat := bs.foldl (fun a b => a * 256 + b) 0

/-- `struct.pack(byteorder + "H", w)`: the two bytes of a 16-bit word in
the configured byte order. -/
def pack_H (bo : Endian) (w : Nat) : List Nat :=
  match bo with
  | .big => natToBE 2 w
  | .little => (natToBE 2 w).reverse

/-- `struct.unpack(byteorder + "H", bs)[0]`; `struct.error` unless `bs`
has exactly two bytes. -/
def unpack_H (bo : Endian) (bs : List Nat) : Except PackError Nat :=
  match bo, bs with
  | .big, [a, b] => .ok (a * 256 + b)
  | .little, [a, b] => .ok (b * 256 + a)
  | _, _ => .error .wrongSize

/-- `struct.unpack(byteorder + "B", bs)[0]` (byte order is irrelevant for
a single byte). -/
def unpack_B (bs : List Nat) : Except PackError Nat :=
  match bs with
  | [a] => .ok a
  | _ => .error .wrongSize

/-- Reading of an unsigned `w`-bit two's-complement word as a signed value:
how `struct.unpack` interprets signed formats. -/
def toSigned (w : Nat) (n : Nat) : Int :=
  if n < 2 ^ (w - 1) then (n : Int) else (n : Int) - 2 ^ w

/-- The `w`-bit two's-complement representative of a signed value, as a
natural number: what `struct.pack` writes for a signed format (in-range
values only; `struct.pack` raises otherwise). -/
def twosNat (w : Nat) (x : Int) : Nat := (x % ((2 : Int) ^ w)).toNat

/-- `struct.unpack(byteorder + "b", bs)[0]`: signed 8-bit read. -/
def unpack_b8 (bs : List Nat) : Except PackError Int :=
  match bs with
  | [a] => .ok (toSigned 8 a)
  | _ => .error .wrongSize

/-- `struct.unpack(byteorder + "h", bs)[0]`: signed 16-bit read in the
configured byte order. -/
def unpack_h16 (bo : Endian) (bs : List Nat) : Except PackError Int :=
  (unpack_H bo bs).map (toSigned 16)

/-- `struct.unpack("!" + fstring, bs)[0]` for an unsigned format of byte
width `w`. -/
def unpack_bang (w : Nat) (bs : List Nat) : Except PackError Nat :=
  if bs.length = w then .ok (beToNat bs) else .error .wrongSize

/-- `struct.unpack("!" + fstring, bs)[0]` for a signed format of byte
width `w`. -/
def unpack_bang_int (w : Nat) (bs : List Nat) : Except PackError Int :=
  if bs.length = w then .ok (toSigned (8 * w) (beToNat bs)) else .error .wrongSize

/-- `BinaryPayloadBuilder._pack_words` (payload.py lines 52-80), for a
format of word count `wc` (`WC[fstring] // 2`): pack the value big-endian,
split into 16-bit network-order words, reverse the word list when the word
order is little, then re-pack each word in the configured byte order. -/
def _pack_words (bo wo : Endian) (wc : Nat) (value : Nat) : List Nat :=
  let value := natToBE (2 * wc) value
  let payload := (chunk2 value).map beToNat
  let payload := if wo = Endian.little then payload.reverse else payload
  ((payload.map (pack_H bo)).flatten)

/-- `BinaryPayloadDecoder._unpack_words` (payload.py lines 340-362):
read `wc` network-order words (`struct.error` on a length mismatch, which
is what `unpack(f"!{wc}H", handle)` raises on a truncated slice), reverse
the word list when the word order is little, then re-pack each word in the
configured byte order. -/
def _unpack_words (bo wo : Endian) (wc : Nat) (handle : List Nat) : Except PackError (List Nat) :=
  if handle.length = 2 * wc then
    let words := (chunk2 handle).map beToNat
    let words := if wo = Endian.little then words.reverse else words
    .ok ((words.map (pack_H bo)).flatten)
  else .error .wrongSize

/-- Bit `i` of a natural number, as the boolean the source's bit strings
use (`format(...)` digits and packed bit positions). -/
def nbit (r i : Nat) : Bool := r / 2 ^ i % 2 == 1

/-- The byte whose bit `m` is element `m` of an (up to 8 element) group of
booleans; the group's first element is the least significant bit. -/
def bitsToByteLSB (g : List Bool) : Nat :=
  g.foldr (fun bit acc => 2 * acc + (if bit then 1 else 0)) 0

/-- Modelled from the spec: `pack_bitstring` from `pymodbus.utilities`,
which is not under `src/`.  Per spec §4.1, the input is left-padded with
`false` to a multiple of eight and each 8-bit group is packed into one
byte most-significant-bit-first relative to the reversed group, i.e. group
element `m` becomes bit `m` of the byte. -/
def pack_bitstring (bits : List Bool) : List Nat :=
  let padded := List.replicate ((8 - bits.length % 8) % 8) false ++ bits
  (chunk8 padded).map bitsToByteLSB

/-- The eight bits of one byte, least significant first (the inverse of
the group-to-byte direction of `pack_bitstring`). -/
def byteBitsLSB (b : Nat) : List Bool :=
  [nbit b 0, nbit b 1, nbit b 2, nbit b 3, nbit b 4, nbit b 5, nbit b 6, nbit b 7]

/-- Modelled from the spec: `unpack_bitstring` from `pymodbus.utilities`,
which is not under `src/`.  Per spec §4.2 and the worked bit round-trip of
§8, each byte expands to its eight bits in the convention that inverts the
encode-side packing: bit `m` of each byte is element `m` of its group. -/
def unpack_bitstring (bs : List Nat) : List Bool := (bs.map byteBitsLSB).flatten

/-- The sixteen binary digits of `format(reg, "016b")`, most significant
first, as booleans (`bool(int(bit))`); faithful for `reg < 2 ^ 16`, and
every register produced by `to_registers` is below `2 ^ 16`. -/
def bits16MSB (r : Nat) : List Bool :=
  [nbit r 15, nbit r 14, nbit r 13, nbit r 12, nbit r 11, nbit r 10, nbit r 9, nbit r 8,
   nbit r 7, nbit r 6, nbit r 5, nbit r 4, nbit r 3, nbit r 2, nbit r 1, nbit r 0]

/-! ### The builder (`BinaryPayloadBuilder`, payload.py lines 24-252) -/

/-- `BinaryPayloadBuilder.__init__` state: the list of byte fragments
accumulated so far and the configuration.  A fresh builder has an empty
payload. -/
structure BinaryPayloadBuilder where
  payload : List (List Nat)
  byteorder : Endian
  wordorder : Endian
  repack : Bool
deriving DecidableEq

/-- `to_string` (lines 82-87): the concatenation of all fragments. -/
def BinaryPayloadBuilder.to_string (b : BinaryPayloadBuilder) : List Nat :=
  b.payload.flatten

/-- The body of `build` (lines 124-135) on a raw byte string: append one
zero byte when the length is odd (`b"\x00" * (length % 2)`), then slice
into the `(length + 1) / 2` consecutive 2-byte chunks produced by
`range(0, length, 2)`. -/
def buildOf (s : List Nat) : List (List Nat) :=
  chunk2 (s ++ List.replicate (s.length % 2) 0)

/-- `build` (lines 124-135). -/
def BinaryPayloadBuilder.build (b : BinaryPayloadBuilder) : List (List Nat) :=
  buildOf b.to_string

/-- `to_registers` (lines 100-113): each 2-byte chunk of `build()` read
with `unpack("!H")`, or with `unpack(byteorder + "H")` when `repack` is
set (every chunk of `build()` has exactly two bytes, so the little-endian
read is the big-endian read of the reversed chunk). -/
def BinaryPayloadBuilder.to_registers (b : BinaryPayloadBuilder) : List Nat :=
  b.build.map (fun chunk =>
    if b.repack then
      match b.byteorder with
      | .big => beToNat chunk
      | .little => beToNat chunk.reverse
    else beToNat chunk)

/-- `to_coils` (lines 115-122): every register of `to_registers()`
expanded through `format(reg, "016b")`, most significant bit first. -/
def BinaryPayloadBuilder.to_coils (b : BinaryPayloadBuilder) : List Bool :=
  (b.to_registers.map bits16MSB).flatten

/-- `reset` (lines 96-98): clear the fragment list. -/
def BinaryPayloadBuilder.reset (b : BinaryPayloadBuilder) : BinaryPayloadBuilder :=
  { b with payload := [] }

/-- `add_bits` (lines 137-147): append `pack_bitstring(values)`. -/
def BinaryPayloadBuilder.add_bits (b : BinaryPayloadBuilder) (values : List Bool) :
    BinaryPayloadBuilder :=
  { b with payload := b.payload ++ [pack_bitstring values] }

/-- `add_8bit_uint` (lines 149-155): `pack(byteorder + "B", value)` - a
single byte, so the byte order mark is irrelevant. -/
def BinaryPayloadBuilder.add_8bit_uint (b : BinaryPayloadBuilder) (value : Nat) :
    BinaryPayloadBuilder :=
  { b with payload := b.payload ++ [[value % 256]] }

/-- `add_16bit_uint` (lines 157-163): `pack(byteorder + "H", value)`. -/
def BinaryPayloadBuilder.add_16bit_uint (b : BinaryPayloadBuilder) (value : Nat) :
    BinaryPayloadBuilder :=
  { b with payload := b.payload ++ [pack_H b.byteorder value] }

/-- `add_32bit_uint` (lines 165-173): `_pack_words("I", value)`,
`WC["i"] // 2 = 2` words. -/
def BinaryPayloadBuilder.add_32bit_uint (b : BinaryPayloadBuilder) (value : Nat) :
    BinaryPayloadBuilder :=
  { b with payload := b.payload ++ [_pack_words b.byteorder b.wordorder 2 value] }

/-- `add_64bit_uint` (lines 175-182): `_pack_words("Q", value)`,
`WC["q"] // 2 = 4` words. -/
def BinaryPayloadBuilder.add_64bit_uint (b : BinaryPayloadBuilder) (value : Nat) :
    BinaryPayloadBuilder :=
  { b with payload := b.payload ++ [_pack_words b.byteorder b.wordorder 4 value] }

/-- `add_8bit_int` (lines 184-190): `pack(byteorder + "b", value)` - the
two's-complement byte of the signed value. -/
def BinaryPayloadBuilder.add_8bit_int (b : BinaryPayloadBuilder) (value : Int) :
    BinaryPayloadBuilder :=
  { b with payload := b.payload ++ [[twosNat 8 value]] }

/-- `add_16bit_int` (lines 192-198): `pack(byteorder + "h", value)`. -/
def BinaryPayloadBuilder.add_16bit_int (b : BinaryPayloadBuilder) (value : Int) :
    BinaryPayloadBuilder :=
  { b with payload := b.payload ++ [pack_H b.byteorder (twosNat 16 value)] }

/-- `add_32bit_int` (lines 200-207): `_pack_words("i", value)` over the
32-bit two's-complement representative. -/
def BinaryPayloadBuilder.add_32bit_int (b : BinaryPayloadBuilder) (value : Int) :
    BinaryPayloadBuilder :=
  { b with payload := b.payload ++ [_pack_words b.byteorder b.wordorder 2 (twosNat 32 value)] }

/-- `add_64bit_int` (lines 209-216): `_pack_words("q", value)` over the
64-bit two's-complement representative. -/
def BinaryPayloadBuilder.add_64bit_int (b : BinaryPayloadBuilder) (value : Int) :
    BinaryPayloadBuilder :=
  { b with payload := b.payload ++ [_pack_words b.byteorder b.wordorder 4 (twosNat 64 value)] }

/-- `add_16bit_float` (lines 218-225): `_pack_words("e", value)`,
`WC["e"] // 2 = 1` word; `value` is the 16-bit pattern of the float. -/
def BinaryPayloadBuilder.add_16bit_float (b : BinaryPayloadBuilder) (value : Nat) :
    BinaryPayloadBuilder :=
  { b with payload := b.payload ++ [_pack_words b.byteorder b.wordorder 1 value] }

/-- `add_32bit_float` (lines 227-234): `_pack_words("f", value)`;
`value` is the 32-bit pattern of the float. -/
def BinaryPayloadBuilder.add_32bit_float (b : BinaryPayloadBuilder) (value : Nat) :
    BinaryPayloadBuilder :=
  { b with payload := b.payload ++ [_pack_words b.byteorder b.wordorder 2 value] }

/-- `add_64bit_float` (lines 236-243): `_pack_words("d", value)`;
`value` is the 64-bit pattern of the float. -/
def BinaryPayloadBuilder.add_64bit_float (b : BinaryPayloadBuilder) (value : Nat) :
    BinaryPayloadBuilder :=
  { b with payload := b.payload ++ [_pack_words b.byteorder b.wordorder 4 value] }

/-- `add_string` (lines 245-252): the raw bytes of the string appended
verbatim (`pack(byteorder + str(len(value)) + "s", value)` copies the
bytes unchanged; `make_byte_string` is the identity on byte strings). -/
def BinaryPayloadBuilder.add_string (b : BinaryPayloadBuilder) (value : List Nat) :
    BinaryPayloadBuilder :=
  { b with payload := b.payload ++ [value] }

/-- `to_string` as a method call on the Python object: the body reads
`self._payload` and assigns no attribute, so the post-state is the
pre-state. -/
def BinaryPayloadBuilder.to_string_m (b : BinaryPayloadBuilder) :
    List Nat × BinaryPayloadBuilder :=
  (b.to_string, b)

/-- `build` as a method call: no attribute assignment in the body. -/
def BinaryPayloadBuilder.build_m (b : BinaryPayloadBuilder) :
    List (List Nat) × BinaryPayloadBuilder :=
  let r := b.to_string_m
  (buildOf r.1, r.2)

/-- `to_registers` as a method call: no attribute assignment in the body. -/
def BinaryPayloadBuilder.to_registers_m (b : BinaryPayloadBuilder) :
    List Nat × BinaryPayloadBuilder :=
  let r := b.build_m
  (r.1.map (fun chunk =>
    if b.repack then
      match b.byteorder with
      | .big => beToNat chunk
      | .little => beToNat chunk.reverse
    else beToNat chunk), r.2)

/-- `to_coils` as a method call: no attribute assignment in the body. -/
def BinaryPayloadBuilder.to_coils_m (b : BinaryPayloadBuilder) :
    List Bool × BinaryPayloadBuilder :=
  let r := b.to_registers_m
  ((r.1.map bits16MSB).flatten, r.2)

/-! ### The decoder (`BinaryPayloadDecoder`, payload.py lines 255-478) -/

/-- `BinaryPayloadDecoder.__init__` state (lines 267-277): the byte
buffer, the read cursor (`self._pointer`, starting at zero), and the
configuration. -/
structure BinaryPayloadDecoder where
  payload : List Nat
  pointer : Nat
  byteorder : Endian
  wordorder : Endian
deriving DecidableEq

/-- `BinaryPayloadDecoder(payload, byteorder, wordorder)`: direct
construction, cursor at zero. -/
def mkDecoder (payload : List Nat) (bo wo : Endian) : BinaryPayloadDecoder :=
  { payload := payload, pointer := 0, byteorder := bo, wordorder := wo }

/-- The flat byte string `fromRegisters` builds from a register list:
`b"".join(pack("!H", x) for x in registers)`. -/
def regsToBytes (registers : List Nat) : List Nat :=
  (registers.map (natToBE 2)).flatten

/-- `fromRegisters` (lines 279-304): on a `list`, flatten it into bytes in
network order per register and build a decoder; on any non-list argument,
raise `ParameterException`. -/
def BinaryPayloadDecoder.fromRegisters (registers : PySeq Nat) (bo wo : Endian) :
    Except ParamError BinaryPayloadDecoder :=
  match registers with
  | .ofList regs => .ok (mkDecoder (regsToBytes regs) bo wo)
  | .ofScalar _ => .error .invalidInput

/-- `bit_chunks` (lines 306-310) with the default `size = 8`. -/
def BinaryPayloadDecoder.bit_chunks (coils : List Bool) : List (List Bool) :=
  chunk8 coils

/-- The list branch of `fromCoils` (lines 312-338): when `len(coils) % 8`
is nonzero, prepend that many `False` entries; pack each 8-chunk reversed
(`pack_bitstring(chunk[::-1])`); the decoder is built as
`cls(payload, byteorder)`, so the `wordorder` argument is dropped and the
decoder carries the default word order `Endian.Big`. -/
def fromCoilsList (coils : List Bool) (bo : Endian) : BinaryPayloadDecoder :=
  let padding := coils.length % 8
  let coils := if padding ≠ 0 then List.replicate padding false ++ coils else coils
  let chunks := BinaryPayloadDecoder.bit_chunks coils
  mkDecoder ((chunks.map (fun chunk => pack_bitstring chunk.reverse)).flatten) bo Endian.big

/-- `fromCoils` (lines 312-338): the list branch above, or
`ParameterException` on a non-list argument. -/
def BinaryPayloadDecoder.fromCoils (coils : PySeq Bool) (bo wo : Endian) :
    Except ParamError BinaryPayloadDecoder :=
  match coils, wo with
  | .ofList l, _ => .ok (fromCoilsList l bo)
  | .ofScalar _, _ => .error .invalidInput

/-- `reset` (lines 364-366): rewind the cursor, buffer untouched. -/
def BinaryPayloadDecoder.reset (d : BinaryPayloadDecoder) : BinaryPayloadDecoder :=
  { d with pointer := 0 }

/-- `decode_8bit_uint` (lines 368-374).  The cursor moves first
(`self._pointer += 1`), then the slice `payload[p-1:p]` is unpacked; a
mismatched slice makes `unpack` raise, with the cursor already advanced,
so the result is paired with the unconditionally advanced state. -/
def BinaryPayloadDecoder.decode_8bit_uint (d : BinaryPayloadDecoder) :
    Except PackError Nat × BinaryPayloadDecoder :=
  let p := d.pointer + 1
  (unpack_B ((d.payload.drop (p - 1)).take 1), { d with pointer := p })

/-- `decode_bits` (lines 376-382): one byte's worth of bits through
`unpack_bitstring`; an empty or short slice yields a short result and no
error. -/
def BinaryPayloadDecoder.decode_bits (d : BinaryPayloadDecoder) :
    List Bool × BinaryPayloadDecoder :=
  let p := d.pointer + 1
  (unpack_bitstring ((d.payload.drop (p - 1)).take 1), { d with pointer := p })

/-- `decode_16bit_uint` (lines 384-390). -/
def BinaryPayloadDecoder.decode_16bit_uint (d : BinaryPayloadDecoder) :
    Except PackError Nat × BinaryPayloadDecoder :=
  let p := d.pointer + 2
  (unpack_H d.byteorder ((d.payload.drop (p - 2)).take 2), { d with pointer := p })

/-- `decode_32bit_uint` (lines 392-399): `_unpack_words("I", handle)` then
`unpack("!I", handle)[0]`. -/
def BinaryPayloadDecoder.decode_32bit_uint (d : BinaryPayloadDecoder) :
    Except PackError Nat × BinaryPayloadDecoder :=
  let p := d.pointer + 4
  ((_unpack_words d.byteorder d.wordorder 2 ((d.payload.drop (p - 4)).take 4)).bind
      (unpack_bang 4),
    { d with pointer := p })

/-- `decode_64bit_uint` (lines 401-407): `_unpack_words("Q", handle)` then
`unpack("!Q", handle)[0]`. -/
def BinaryPayloadDecoder.decode_64bit_uint (d : BinaryPayloadDecoder) :
    Except PackError Nat × BinaryPayloadDecoder :=
  let p := d.pointer + 8
  ((_unpack_words d.byteorder d.wordorder 4 ((d.payload.drop (p - 8)).take 8)).bind
      (unpack_bang 8),
    { d with pointer := p })

/-- `decode_8bit_int` (lines 409-415). -/
def BinaryPayloadDecoder.decode_8bit_int (d : BinaryPayloadDecoder) :
    Except PackError Int × BinaryPayloadDecoder :=
  let p := d.pointer + 1
  (unpack_b8 ((d.payload.drop (p - 1)).take 1), { d with pointer := p })

/-- `decode_16bit_int` (lines 417-423). -/
def BinaryPayloadDecoder.decode_16bit_int (d : BinaryPayloadDecoder) :
    Except PackError Int × BinaryPayloadDecoder :=
  let p := d.pointer + 2
  (unpack_h16 d.byteorder ((d.payload.drop (p - 2)).take 2), { d with pointer := p })

/-- `decode_32bit_int` (lines 425-431). -/
def BinaryPayloadDecoder.decode_32bit_int (d : BinaryPayloadDecoder) :
    Except PackError Int × BinaryPayloadDecoder :=
  let p := d.pointer + 4
  ((_unpack_words d.byteorder d.wordorder 2 ((d.payload.drop (p - 4)).take 4)).bind
      (unpack_bang_int 4),
    { d with pointer := p })

/-- `decode_64bit_int` (lines 433-439). -/
def BinaryPayloadDecoder.decode_64bit_int (d : BinaryPayloadDecoder) :
    Except PackError Int × BinaryPayloadDecoder :=
  let p := d.pointer + 8
  ((_unpack_words d.byteorder d.wordorder 4 ((d.payload.drop (p - 8)).take 8)).bind
      (unpack_bang_int 8),
    { d with pointer := p })

/-- `decode_16bit_float` (lines 441-447): `_unpack_words("e", handle)`,
`WC["e"] // 2 = 1` word, then `unpack("!e")`; the result is the 16-bit
pattern of the float. -/
def BinaryPayloadDecoder.decode_16bit_float (d : BinaryPayloadDecoder) :
    Except PackError Nat × BinaryPayloadDecoder :=
  let p := d.pointer + 2
  ((_unpack_words d.byteorder d.wordorder 1 ((d.payload.drop (p - 2)).take 2)).bind
      (unpack_bang 2),
    { d with pointer := p })

/-- `decode_32bit_float` (lines 449-455); the result is the 32-bit pattern
of the float. -/
def BinaryPayloadDecoder.decode_32bit_float (d : BinaryPayloadDecoder) :
    Except PackError Nat × BinaryPayloadDecoder :=
  let p := d.pointer + 4
  ((_unpack_words d.byteorder d.wordorder 2 ((d.payload.drop (p - 4)).take 4)).bind
      (unpack_bang 4),
    { d with pointer := p })

/-- `decode_64bit_float` (lines 457-463); the result is the 64-bit pattern
of the float. -/
def BinaryPayloadDecoder.decode_64bit_float (d : BinaryPayloadDecoder) :
    Except PackError Nat × BinaryPayloadDecoder :=
  let p := d.pointer + 8
  ((_unpack_words d.byteorder d.wordorder 4 ((d.payload.drop (p - 8)).take 8)).bind
      (unpack_bang 8),
    { d with pointer := p })

/-- `decode_string` (lines 465-471): `size` raw bytes verbatim, silently
truncated at the end of the buffer. -/
def BinaryPayloadDecoder.decode_string (d : BinaryPayloadDecoder) (size : Nat) :
    List Nat × BinaryPayloadDecoder :=
  let p := d.pointer + size
  ((d.payload.drop (p - size)).take size, { d with pointer := p })

/-- `skip_bytes` (lines 473-478): advance the cursor by the byte count. -/
def BinaryPayloadDecoder.skip_bytes (d : BinaryPayloadDecoder) (nbytes : Nat) :
    BinaryPayloadDecoder :=
  { d with pointer := d.pointer + nbytes }

/-- `decode_bits` iterated `k` times, concatenating the bit groups. -/
def decodeBitsRun : Nat → BinaryPayloadDecoder → List Bool
  | 0, _ => []
  | k + 1, d =>
    let r := d.decode_bits
    r.1 ++ decodeBitsRun k r.2

/-- The decoder's cursor-moving operations, as one alphabet, for stating
the cursor invariant. -/
inductive DOp where
  | d8u | d8i | dbits | d16u | d16i | d16f | d32u | d32i | d32f | d64u | d64i | d64f
  | dstr (size : Nat)
  | skip (nbytes : Nat)
  | rst
deriving DecidableEq

/-- The byte width each operation consumes: 1 for the 8-bit decodes and
`decode_bits`, 2/4/8 for the wider types, `size` for `decode_string`,
`nbytes` for `skip_bytes` (and 0 for `reset`, which is treated apart). -/
def DOp.width : DOp → Nat
  | .d8u | .d8i | .dbits => 1
  | .d16u | .d16i | .d16f => 2
  | .d32u | .d32i | .d32f => 4
  | .d64u | .d64i | .d64f => 8
  | .dstr size => size
  | .skip nbytes => nbytes
  | .rst => 0

/-- The post-state of one decoder operation (results discarded). -/
def BinaryPayloadDecoder.stepOp (d : BinaryPayloadDecoder) : DOp → BinaryPayloadDecoder
  | .d8u => d.decode_8bit_uint.2
  | .d8i => d.decode_8bit_int.2
  | .dbits => d.decode_bits.2
  | .d16u => d.decode_16bit_uint.2
  | .d16i => d.decode_16bit_int.2
  | .d16f => d.decode_16bit_float.2
  | .d32u => d.decode_32bit_uint.2
  | .d32i => d.decode_32bit_int.2
  | .d32f => d.decode_32bit_float.2
  | .d64u => d.decode_64bit_uint.2
  | .d64i => d.decode_64bit_int.2
  | .d64f => d.decode_64bit_float.2
  | .dstr size => (d.decode_string size).2
  | .skip nbytes => d.skip_bytes nbytes
  | .rst => d.reset

/-- A sequence of decoder operations run left to right. -/
def runOps : List DOp → BinaryPayloadDecoder → BinaryPayloadDecoder
  | [], d => d
  | op :: ops, d => runOps ops (d.stepOp op)

/-- `BinaryPayloadBuilder(payload=None, byteorder, wordorder, repack)`
(lines 37-50): a fresh builder starts with an empty fragment list. -/
def mkBuilder (bo wo : Endian) (repack : Bool) : BinaryPayloadBuilder :=
  { payload := [], byteorder := bo, wordorder := wo, repack := repack }

/-! ### Helper lemmas -/

/-- Induction on a list two elements at a time. -/
theorem twoStepInduction {α : Type} {P : List α → Prop} (nil : P []) (single : ∀ a, P [a])
    (pair : ∀ a b l, P l → P (a :: b :: l)) : ∀ l, P l := by
  have key : ∀ n (l : List α), l.length ≤ n → P l := by
    intro n
    induction n with
    | zero => intro l hl; rw [Nat.le_zero, List.length_eq_zero] at hl; rwa [hl]
    | succ n ih =>
      intro l hl
      rcases l with _ | ⟨a, _ | ⟨b, t⟩⟩
      · exact nil
      · exact single a
      · exact pair a b t (ih t (by simp at hl; omega))
  exact fun l => key l.length l le_rfl

theorem beToNat_pair (a b : Nat) : beToNat [a, b] = a * 256 + b := by
  simp [beToNat, List.foldl]

theorem chunk2_length {α : Type} (l : List α) : (chunk2 l).length = (l.length + 1) / 2 := by
  induction l using twoStepInduction with
  | nil => simp [chunk2]
  | single a => simp [chunk2]
  | pair a b l ih => simp [chunk2, ih]; omega

theorem chunk2_shape {α : Type} :
    ∀ l : List α, l.length % 2 = 0 → ∀ c ∈ chunk2 l, ∃ x y, c = [x, y] ∧ x ∈ l ∧ y ∈ l := by
  refine twoStepInduction (by simp [chunk2]) (by simp) ?_
  intro a b l ih hlen c hc
  simp only [chunk2, List.mem_cons] at hc
  rcases hc with rfl | hc
  · exact ⟨a, b, rfl, by simp, by simp⟩
  · obtain ⟨x, y, rfl, hx, hy⟩ := ih (by simp at hlen ⊢; omega) c hc
    exact ⟨x, y, rfl, by simp [hx], by simp [hy]⟩

theorem chunk2_blocks {α β : Type} (f : β → List α) :
    ∀ l : List β, (∀ x ∈ l, ∃ a b, f x = [a, b]) →
      chunk2 ((l.map f).flatten) = l.map f := by
  intro l
  induction l with
  | nil => intro _; simp [chunk2]
  | cons x l ih =>
    intro h
    obtain ⟨a, b, hab⟩ := h x (by simp)
    have ih2 := ih (fun y hy => h y (by simp [hy]))
    simp only [List.map_cons, List.flatten_cons, hab, List.cons_append, List.nil_append,
      chunk2, ih2]

theorem list8_destruct {α : Type} (g : List α) (h : g.length = 8) :
    ∃ c0 c1 c2 c3 c4 c5 c6 c7, g = [c0, c1, c2, c3, c4, c5, c6, c7] := by
  rcases g with _ | ⟨c0, _ | ⟨c1, _ | ⟨c2, _ | ⟨c3, _ | ⟨c4, _ | ⟨c5, _ | ⟨c6, _ | ⟨c7, t⟩⟩⟩⟩⟩⟩⟩⟩ <;>
    simp_all

theorem chunk8_block {α : Type} (g rest : List α) (h : g.length = 8) :
    chunk8 (g ++ rest) = g :: chunk8 rest := by
  obtain ⟨c0, c1, c2, c3, c4, c5, c6, c7, rfl⟩ := list8_destruct g h
  rfl

theorem chunk8_dvd {α : Type} (l : List α) (hdvd : 8 ∣ l.length) :
    (∀ c ∈ chunk8 l, c.length = 8) ∧ (chunk8 l).flatten = l ∧
      (chunk8 l).length = l.length / 8 := by
  have key : ∀ n (l : List α), l.length ≤ n → 8 ∣ l.length →
      (∀ c ∈ chunk8 l, c.length = 8) ∧ (chunk8 l).flatten = l ∧
        (chunk8 l).length = l.length / 8 := by
    intro n
    induction n with
    | zero =>
      intro l hl _
      rw [Nat.le_zero, List.length_eq_zero] at hl
      subst hl
      exact ⟨by simp [chunk8], by simp [chunk8], by simp [chunk8]⟩
    | succ n ih =>
      intro l hl hdvd
      rcases Nat.eq_zero_or_pos l.length with hz | hpos
      · rw [List.length_eq_zero] at hz
        subst hz
        exact ⟨by simp [chunk8], by simp [chunk8], by simp [chunk8]⟩
      · have h8 : 8 ≤ l.length := by rcases hdvd with ⟨k, hk⟩; omega
        have hsplit := List.take_append_drop 8 l
        have htake : (l.take 8).length = 8 := by simp; omega
        have hdroplen : (l.drop 8).length = l.length - 8 := List.length_drop 8 l
        have hrec := ih (l.drop 8) (by omega)
          (by rw [hdroplen]; rcases hdvd with ⟨k, hk⟩; exact ⟨k - 1, by omega⟩)
        rw [← hsplit, chunk8_block _ _ htake]
        refine ⟨?_, ?_, ?_⟩
        · intro c hc
          rcases hc with _ | hc
          · exact htake
          · exact hrec.1 c (by assumption)
        · simp [hrec.2.1, hsplit]
        · simp only [List.length_cons, hrec.2.2, hdroplen, List.length_append, htake]
          omega
  exact key l.length l le_rfl hdvd

set_option maxRecDepth 100000 in
theorem bits_inv8 : ∀ (c0 c1 c2 c3 c4 c5 c6 c7 : Bool),
    byteBitsLSB (bitsToByteLSB [c0, c1, c2, c3, c4, c5, c6, c7]) =
      [c0, c1, c2, c3, c4, c5, c6, c7] := by decide

set_option maxRecDepth 100000 in
theorem bitsToByteLSB_lt8 : ∀ (c0 c1 c2 c3 c4 c5 c6 c7 : Bool),
    bitsToByteLSB [c0, c1, c2, c3, c4, c5, c6, c7] < 256 := by decide

set_option maxRecDepth 100000 in
theorem byte_inv : ∀ x < 256, bitsToByteLSB (byteBitsLSB x) = x := by decide

theorem bits_inv8_of_len (g : List Bool) (h : g.length = 8) :
    byteBitsLSB (bitsToByteLSB g) = g := by
  obtain ⟨c0, c1, c2, c3, c4, c5, c6, c7, rfl⟩ := list8_destruct g h
  exact bits_inv8 c0 c1 c2 c3 c4 c5 c6 c7

theorem bitsToByteLSB_lt_of_len (g : List Bool) (h : g.length = 8) :
    bitsToByteLSB g < 256 := by
  obtain ⟨c0, c1, c2, c3, c4, c5, c6, c7, rfl⟩ := list8_destruct g h
  exact bitsToByteLSB_lt8 c0 c1 c2 c3 c4 c5 c6 c7

theorem nbit_congr {a i b j : Nat} (h : a / 2 ^ i % 2 = b / 2 ^ j % 2) :
    nbit a i = nbit b j := by
  unfold nbit
  rw [h]

theorem byteBits_reverse (x : Nat) :
    (byteBitsLSB x).reverse =
      [nbit x 7, nbit x 6, nbit x 5, nbit x 4, nbit x 3, nbit x 2, nbit x 1, nbit x 0] := rfl

theorem bits16_split (x y : Nat) (hy : y < 256) :
    bits16MSB (x * 256 + y) = (byteBitsLSB x).reverse ++ (byteBitsLSB y).reverse := by
  rw [byteBits_reverse, byteBits_reverse]
  simp only [bits16MSB, List.cons_append, List.nil_append, List.cons.injEq]
  refine ⟨nbit_congr (by omega), nbit_congr (by omega), nbit_congr (by omega),
    nbit_congr (by omega), nbit_congr (by omega), nbit_congr (by omega),
    nbit_congr (by omega), nbit_congr (by omega), nbit_congr (by omega),
    nbit_congr (by omega), nbit_congr (by omega), nbit_congr (by omega),
    nbit_congr (by omega), nbit_congr (by omega), nbit_congr (by omega),
    nbit_congr (by omega), trivial⟩

theorem natToBE_length (w v : Nat) : (natToBE w v).length = w := by
  induction w generalizing v with
  | zero => rfl
  | succ w ih => simp [natToBE, ih]

theorem natToBE_lt (w v : Nat) : ∀ x ∈ natToBE w v, x < 256 := by
  induction w generalizing v with
  | zero => simp [natToBE]
  | succ w ih =>
    intro x hx
    simp only [natToBE, List.mem_append, List.mem_singleton] at hx
    rcases hx with hx | rfl
    · exact ih _ x hx
    · omega

theorem beToNat_natToBE (w v : Nat) (h : v < 256 ^ w) : beToNat (natToBE w v) = v := by
  induction w generalizing v with
  | zero => simp [natToBE, beToNat] at h ⊢; omega
  | succ w ih =>
    have hdiv : v / 256 < 256 ^ w := by
      rw [Nat.pow_succ] at h
      omega
    simp only [natToBE, beToNat, List.foldl_append, List.foldl_cons, List.foldl_nil]
    rw [show List.foldl (fun a b => a * 256 + b) 0 (natToBE w (v / 256)) =
      beToNat (natToBE w (v / 256)) from rfl, ih _ hdiv]
    omega

theorem natToBE2_eq (w : Nat) : natToBE 2 w = [w / 256 % 256, w % 256] := rfl

theorem pack_H_pair (bo : Endian) (w : Nat) : ∃ a b, pack_H bo w = [a, b] := by
  cases bo <;> exact ⟨_, _, rfl⟩

theorem pack_H_length (bo : Endian) (w : Nat) : (pack_H bo w).length = 2 := by
  cases bo <;> rfl

theorem pack_H_round (bo : Endian) (w : Nat) :
    pack_H bo (beToNat (pack_H bo w)) = natToBE 2 w := by
  cases bo
  · simp only [pack_H, natToBE2_eq, beToNat_pair, List.cons.injEq, and_true]
    constructor
    · have h3 : (w / 256 % 256 * 256 + w % 256) / 256 = w / 256 % 256 := by omega
      rw [h3]
      omega
    · omega
  · simp only [pack_H, natToBE2_eq, List.reverse_cons, List.reverse_nil, List.nil_append,
      List.cons_append, beToNat_pair, List.cons.injEq, and_true]
    constructor
    · omega
    · have h3 : (w % 256 * 256 + w / 256 % 256) / 256 = w % 256 := by omega
      rw [h3]
      omega

theorem flatten_chunk2_inv :
    ∀ bytes : List Nat, bytes.length % 2 = 0 → (∀ x ∈ bytes, x < 256) →
      ((chunk2 bytes).map (fun c => natToBE 2 (beToNat c))).flatten = bytes := by
  refine twoStepInduction (by simp [chunk2]) (by simp) ?_
  intro a b l ih hlen hlt
  have ha : a < 256 := hlt a (by simp)
  have hb : b < 256 := hlt b (by simp)
  simp only [chunk2, List.map_cons, List.flatten_cons]
  rw [ih (by simp at hlen ⊢; omega) (fun x hx => hlt x (by simp [hx])), beToNat_pair,
    natToBE2_eq]
  simp only [List.cons_append, List.nil_append, List.cons.injEq, and_true]
  omega

theorem flatten_packH_length (bo : Endian) :
    ∀ l : List Nat, ((l.map (pack_H bo)).flatten).length = 2 * l.length := by
  intro l
  induction l with
  | nil => rfl
  | cons a l ih =>
    simp only [List.map_cons, List.flatten_cons, List.length_append, pack_H_length, ih,
      List.length_cons]
    omega

theorem unpack_pack_words (bo wo : Endian) (wc v : Nat) (h : v < 256 ^ (2 * wc)) :
    (_unpack_words bo wo wc (_pack_words bo wo wc v)).bind (unpack_bang (2 * wc)) =
      .ok v := by
  have hblen : (natToBE (2 * wc) v).length = 2 * wc := natToBE_length _ _
  have hblt := natToBE_lt (2 * wc) v
  set bytes := natToBE (2 * wc) v with hbytes
  set ws := (chunk2 bytes).map beToNat with hws
  have hw16 : ∀ w ∈ ws, w < 2 ^ 16 := by
    intro w hw
    rw [hws] at hw
    obtain ⟨c, hc, rfl⟩ := List.mem_map.mp hw
    obtain ⟨x, y, rfl, hx, hy⟩ := chunk2_shape bytes (by omega) c hc
    rw [beToNat_pair]
    have := hblt x hx
    have := hblt y hy
    omega
  have hwlen : ws.length = wc := by
    rw [hws, List.length_map, chunk2_length, hblen]
    omega
  have hE : _pack_words bo wo wc v =
      (((if wo = Endian.little then ws.reverse else ws).map (pack_H bo)).flatten) := rfl
  set ws2 := if wo = Endian.little then ws.reverse else ws with hws2
  have hw2len : ws2.length = wc := by
    rw [hws2]
    split <;> simp [hwlen]
  have hElen : ((ws2.map (pack_H bo)).flatten).length = 2 * wc := by
    rw [flatten_packH_length, hw2len]
  rw [hE, _unpack_words, if_pos hElen]
  have hchunk : chunk2 ((ws2.map (pack_H bo)).flatten) = ws2.map (pack_H bo) :=
    chunk2_blocks (pack_H bo) ws2 (fun x _ => pack_H_pair bo x)
  rw [hchunk, List.map_map]
  have hrev : (if wo = Endian.little then (ws2.map (beToNat ∘ pack_H bo)).reverse
      else ws2.map (beToNat ∘ pack_H bo)) = ws.map (beToNat ∘ pack_H bo) := by
    rw [hws2]
    split
    · rw [List.map_reverse, List.reverse_reverse]
    · rfl
  simp only [hrev]
  have hstep : ((ws.map (beToNat ∘ pack_H bo)).map (pack_H bo)) = ws.map (natToBE 2) := by
    rw [List.map_map]
    exact List.map_congr_left (fun a _ => pack_H_round bo a)
  rw [hstep]
  have hfl : ((ws.map (natToBE 2)).flatten) = bytes := by
    rw [hws, List.map_map]
    exact flatten_chunk2_inv bytes (by omega) hblt
  rw [hfl]
  show unpack_bang (2 * wc) bytes = Except.ok v
  rw [unpack_bang, if_pos hblen, hbytes, beToNat_natToBE _ _ h]

theorem _pack_words_length (bo wo : Endian) (wc v : Nat) :
    (_pack_words bo wo wc v).length = 2 * wc := by
  show (((if wo = Endian.little
      then ((chunk2 (natToBE (2 * wc) v)).map beToNat).reverse
      else (chunk2 (natToBE (2 * wc) v)).map beToNat).map (pack_H bo)).flatten).length = 2 * wc
  rw [flatten_packH_length]
  split <;> (simp [chunk2_length, natToBE_length]; omega)

theorem decode_words_of_pack (bo wo : Endian) (wc v : Nat) (h : v < 256 ^ (2 * wc)) :
    (_unpack_words bo wo wc (((_pack_words bo wo wc v).drop 0).take (2 * wc))).bind
      (unpack_bang (2 * wc)) = .ok v := by
  rw [List.drop_zero, List.take_of_length_le (le_of_eq (_pack_words_length bo wo wc v))]
  exact unpack_pack_words bo wo wc v h

theorem unpack_bang_int_eq (w : Nat) (bs : List Nat) :
    unpack_bang_int w bs = (unpack_bang w bs).map (toSigned (8 * w)) := by
  by_cases hc : bs.length = w <;> simp [unpack_bang, unpack_bang_int, hc, Except.map]

theorem bind_int_of_bind_uint {X : Except PackError (List Nat)} {w n : Nat}
    (key : X.bind (unpack_bang w) = .ok n) :
    X.bind (unpack_bang_int w) = .ok (toSigned (8 * w) n) := by
  cases X with
  | ok bs =>
    have hun : unpack_bang w bs = .ok n := key
    rw [show (Except.ok bs : Except PackError (List Nat)).bind (unpack_bang_int w) =
      unpack_bang_int w bs from rfl, unpack_bang_int_eq, hun]
    rfl
  | error e => simp [Except.bind] at key

/-! ### Round-trip facts for each numeric width (claim C1) -/

theorem roundtrip_u8 (bo wo : Endian) (v : Nat) (h : v < 2 ^ 8) :
    ((mkDecoder ((mkBuilder bo wo false).add_8bit_uint v).to_string bo wo).decode_8bit_uint).1 =
      .ok v := by
  show unpack_B (((([] : List (List Nat)) ++ [[v % 256]]).flatten.drop (0 + 1 - 1)).take 1) =
    .ok v
  simp only [List.nil_append, List.flatten_cons, List.flatten_nil, List.append_nil,
    Nat.add_sub_cancel, List.drop_zero, List.take_succ_cons, List.take_zero, unpack_B,
    Except.ok.injEq]
  omega

theorem roundtrip_i8 (bo wo : Endian) (x : Int) (h1 : -2 ^ 7 ≤ x) (h2 : x < 2 ^ 7) :
    ((mkDecoder ((mkBuilder bo wo false).add_8bit_int x).to_string bo wo).decode_8bit_int).1 =
      .ok x := by
  show unpack_b8 (((([] : List (List Nat)) ++ [[twosNat 8 x]]).flatten.drop (0 + 1 - 1)).take 1) =
    .ok x
  simp only [List.nil_append, List.flatten_cons, List.flatten_nil, List.append_nil,
    Nat.add_sub_cancel, List.drop_zero, List.take_succ_cons, List.take_zero, unpack_b8,
    Except.ok.injEq, toSigned, twosNat]
  split <;> omega

theorem unpack_pack_H (bo : Endian) (v : Nat) (h : v < 2 ^ 16) :
    unpack_H bo ((pack_H bo v).take 2) = .ok v := by
  cases bo <;>
    · simp only [pack_H, natToBE2_eq, List.reverse_cons, List.reverse_nil, List.nil_append,
        List.cons_append, List.take_succ_cons, List.take_zero, unpack_H, Except.ok.injEq]
      omega

theorem roundtrip_u16 (bo wo : Endian) (v : Nat) (h : v < 2 ^ 16) :
    ((mkDecoder ((mkBuilder bo wo false).add_16bit_uint v).to_string bo wo).decode_16bit_uint).1 =
      .ok v := by
  show unpack_H bo
      (((([] : List (List Nat)) ++ [pack_H bo v]).flatten.drop (0 + 2 - 2)).take 2) = .ok v
  simp only [List.nil_append, List.flatten_cons, List.flatten_nil, List.append_nil,
    Nat.add_sub_cancel, List.drop_zero]
  exact unpack_pack_H bo v h

theorem roundtrip_i16 (bo wo : Endian) (x : Int) (h1 : -2 ^ 15 ≤ x) (h2 : x < 2 ^ 15) :
    ((mkDecoder ((mkBuilder bo wo false).add_16bit_int x).to_string bo wo).decode_16bit_int).1 =
      .ok x := by
  show unpack_h16 bo
      (((([] : List (List Nat)) ++
        [pack_H bo (twosNat 16 x)]).flatten.drop (0 + 2 - 2)).take 2) = .ok x
  simp only [List.nil_append, List.flatten_cons, List.flatten_nil, List.append_nil,
    Nat.add_sub_cancel, List.drop_zero]
  rw [unpack_h16, unpack_pack_H bo _ (by simp only [twosNat]; omega)]
  show Except.ok (toSigned 16 (twosNat 16 x)) = .ok x
  simp only [Except.ok.injEq, toSigned, twosNat]
  split <;> omega

theorem roundtrip_u32 (bo wo : Endian) (v : Nat) (h : v < 2 ^ 32) :
    ((mkDecoder ((mkBuilder bo wo false).add_32bit_uint v).to_string bo wo).decode_32bit_uint).1 =
      .ok v := by
  simp only [mkBuilder, BinaryPayloadBuilder.add_32bit_uint, BinaryPayloadBuilder.to_string,
    mkDecoder, BinaryPayloadDecoder.decode_32bit_uint, List.nil_append, List.flatten_cons,
    List.flatten_nil, List.append_nil]
  exact decode_words_of_pack bo wo 2 v (by omega)

theorem roundtrip_u64 (bo wo : Endian) (v : Nat) (h : v < 2 ^ 64) :
    ((mkDecoder ((mkBuilder bo wo false).add_64bit_uint v).to_string bo wo).decode_64bit_uint).1 =
      .ok v := by
  simp only [mkBuilder, BinaryPayloadBuilder.add_64bit_uint, BinaryPayloadBuilder.to_string,
    mkDecoder, BinaryPayloadDecoder.decode_64bit_uint, List.nil_append, List.flatten_cons,
    List.flatten_nil, List.append_nil]
  exact decode_words_of_pack bo wo 4 v (by omega)

theorem roundtrip_i32 (bo wo : Endian) (x : Int) (h1 : -2 ^ 31 ≤ x) (h2 : x < 2 ^ 31) :
    ((mkDecoder ((mkBuilder bo wo false).add_32bit_int x).to_string bo wo).decode_32bit_int).1 =
      .ok x := by
  simp only [mkBuilder, BinaryPayloadBuilder.add_32bit_int, BinaryPayloadBuilder.to_string,
    mkDecoder, BinaryPayloadDecoder.decode_32bit_int, List.nil_append, List.flatten_cons,
    List.flatten_nil, List.append_nil]
  have key := decode_words_of_pack bo wo 2 (twosNat 32 x) (by simp only [twosNat]; omega)
  rw [bind_int_of_bind_uint key]
  simp only [Except.ok.injEq, toSigned, twosNat]
  split <;> omega

theorem roundtrip_i64 (bo wo : Endian) (x : Int) (h1 : -2 ^ 63 ≤ x) (h2 : x < 2 ^ 63) :
    ((mkDecoder ((mkBuilder bo wo false).add_64bit_int x).to_string bo wo).decode_64bit_int).1 =
      .ok x := by
  simp only [mkBuilder, BinaryPayloadBuilder.add_64bit_int, BinaryPayloadBuilder.to_string,
    mkDecoder, BinaryPayloadDecoder.decode_64bit_int, List.nil_append, List.flatten_cons,
    List.flatten_nil, List.append_nil]
  have key := decode_words_of_pack bo wo 4 (twosNat 64 x) (by simp only [twosNat]; omega)
  rw [bind_int_of_bind_uint key]
  simp only [Except.ok.injEq, toSigned, twosNat]
  split <;> omega

theorem roundtrip_f16 (bo wo : Endian) (p : Nat) (h : p < 2 ^ 16) :
    ((mkDecoder ((mkBuilder bo wo false).add_16bit_float p).to_string bo wo).decode_16bit_float).1 =
      .ok p := by
  simp only [mkBuilder, BinaryPayloadBuilder.add_16bit_float, BinaryPayloadBuilder.to_string,
    mkDecoder, BinaryPayloadDecoder.decode_16bit_float, List.nil_append, List.flatten_cons,
    List.flatten_nil, List.append_nil]
  exact decode_words_of_pack bo wo 1 p (by omega)

theorem roundtrip_f32 (bo wo : Endian) (p : Nat) (h : p < 2 ^ 32) :
    ((mkDecoder ((mkBuilder bo wo false).add_32bit_float p).to_string bo wo).decode_32bit_float).1 =
      .ok p := by
  simp only [mkBuilder, BinaryPayloadBuilder.add_32bit_float, BinaryPayloadBuilder.to_string,
    mkDecoder, BinaryPayloadDecoder.decode_32bit_float, List.nil_append, List.flatten_cons,
    List.flatten_nil, List.append_nil]
  exact decode_words_of_pack bo wo 2 p (by omega)

theorem roundtrip_f64 (bo wo : Endian) (p : Nat) (h : p < 2 ^ 64) :
    ((mkDecoder ((mkBuilder bo wo false).add_64bit_float p).to_string bo wo).decode_64bit_float).1 =
      .ok p := by
  simp only [mkBuilder, BinaryPayloadBuilder.add_64bit_float, BinaryPayloadBuilder.to_string,
    mkDecoder, BinaryPayloadDecoder.decode_64bit_float, List.nil_append, List.flatten_cons,
    List.flatten_nil, List.append_nil]
  exact decode_words_of_pack bo wo 4 p (by omega)

/-- C1: for every supported numeric width (8/16/32/64-bit signed and
unsigned integers and 16/32/64-bit floats, the latter represented by their
bit patterns), every value in the type's representable range, and every
one of the four (byte order, word order) configurations, encoding the
value with the builder's add operation into a fresh buffer and decoding
that buffer with the matching decoder decode operation (same byte order
and word order) returns the value exactly. -/
theorem C1_numeric_roundtrip (bo wo : Endian) :
    (∀ v : Nat, v < 2 ^ 8 →
      ((mkDecoder ((mkBuilder bo wo false).add_8bit_uint v).to_string bo
        wo).decode_8bit_uint).1 = .ok v) ∧
    (∀ x : Int, -2 ^ 7 ≤ x → x < 2 ^ 7 →
      ((mkDecoder ((mkBuilder bo wo false).add_8bit_int x).to_string bo
        wo).decode_8bit_int).1 = .ok x) ∧
    (∀ v : Nat, v < 2 ^ 16 →
      ((mkDecoder ((mkBuilder bo wo false).add_16bit_uint v).to_string bo
        wo).decode_16bit_uint).1 = .ok v) ∧
    (∀ x : Int, -2 ^ 15 ≤ x → x < 2 ^ 15 →
      ((mkDecoder ((mkBuilder bo wo false).add_16bit_int x).to_string bo
        wo).decode_16bit_int).1 = .ok x) ∧
    (∀ v : Nat, v < 2 ^ 32 →
      ((mkDecoder ((mkBuilder bo wo false).add_32bit_uint v).to_string bo
        wo).decode_32bit_uint).1 = .ok v) ∧
    (∀ x : Int, -2 ^ 31 ≤ x → x < 2 ^ 31 →
      ((mkDecoder ((mkBuilder bo wo false).add_32bit_int x).to_string bo
        wo).decode_32bit_int).1 = .ok x) ∧
    (∀ v : Nat, v < 2 ^ 64 →
      ((mkDecoder ((mkBuilder bo wo false).add_64bit_uint v).to_string bo
        wo).decode_64bit_uint).1 = .ok v) ∧
    (∀ x : Int, -2 ^ 63 ≤ x → x < 2 ^ 63 →
      ((mkDecoder ((mkBuilder bo wo false).add_64bit_int x).to_string bo
        wo).decode_64bit_int).1 = .ok x) ∧
    (∀ p : Nat, p < 2 ^ 16 →
      ((mkDecoder ((mkBuilder bo wo false).add_16bit_float p).to_string bo
        wo).decode_16bit_float).1 = .ok p) ∧
    (∀ p : Nat, p < 2 ^ 32 →
      ((mkDecoder ((mkBuilder bo wo false).add_32bit_float p).to_string bo
        wo).decode_32bit_float).1 = .ok p) ∧
    (∀ p : Nat, p < 2 ^ 64 →
      ((mkDecoder ((mkBuilder bo wo false).add_64bit_float p).to_string bo
        wo).decode_64bit_float).1 = .ok p) :=
  ⟨fun v h => roundtrip_u8 bo wo v h,
   fun x h1 h2 => roundtrip_i8 bo wo x h1 h2,
   fun v h => roundtrip_u16 bo wo v h,
   fun x h1 h2 => roundtrip_i16 bo wo x h1 h2,
   fun v h => roundtrip_u32 bo wo v h,
   fun x h1 h2 => roundtrip_i32 bo wo x h1 h2,
   fun v h => roundtrip_u64 bo wo v h,
   fun x h1 h2 => roundtrip_i64 bo wo x h1 h2,
   fun p h => roundtrip_f16 bo wo p h,
   fun p h => roundtrip_f32 bo wo p h,
   fun p h => roundtrip_f64 bo wo p h⟩

/-- Witness for C1 at concrete inputs, one per width, covering all four
configurations across the conjuncts. -/
theorem C1_numeric_roundtrip_witness :
    ((mkDecoder ((mkBuilder .little .big false).add_8bit_uint 200).to_string .little
      .big).decode_8bit_uint).1 = .ok 200 ∧
    ((mkDecoder ((mkBuilder .big .big false).add_8bit_int (-5)).to_string .big
      .big).decode_8bit_int).1 = .ok (-5) ∧
    ((mkDecoder ((mkBuilder .little .little false).add_16bit_uint 43981).to_string .little
      .little).decode_16bit_uint).1 = .ok 43981 ∧
    ((mkDecoder ((mkBuilder .big .little false).add_16bit_int (-2)).to_string .big
      .little).decode_16bit_int).1 = .ok (-2) ∧
    ((mkDecoder ((mkBuilder .little .big false).add_32bit_uint 1).to_string .little
      .big).decode_32bit_uint).1 = .ok 1 ∧
    ((mkDecoder ((mkBuilder .big .big false).add_32bit_int (-123456)).to_string .big
      .big).decode_32bit_int).1 = .ok (-123456) ∧
    ((mkDecoder ((mkBuilder .little .little false).add_64bit_uint
      81985529216486895).to_string .little .little).decode_64bit_uint).1 =
        .ok 81985529216486895 ∧
    ((mkDecoder ((mkBuilder .big .little false).add_64bit_int (-3)).to_string .big
      .little).decode_64bit_int).1 = .ok (-3) ∧
    ((mkDecoder ((mkBuilder .little .big false).add_16bit_float 15360).to_string .little
      .big).decode_16bit_float).1 = .ok 15360 ∧
    ((mkDecoder ((mkBuilder .big .little false).add_32bit_float 1078530011).to_string .big
      .little).decode_32bit_float).1 = .ok 1078530011 ∧
    ((mkDecoder ((mkBuilder .little .little false).add_64bit_float
      4614256656552045848).to_string .little .little).decode_64bit_float).1 =
        .ok 4614256656552045848 :=
  ⟨(C1_numeric_roundtrip .little .big).1 200 (by decide),
   (C1_numeric_roundtrip .big .big).2.1 (-5) (by decide) (by decide),
   (C1_numeric_roundtrip .little .little).2.2.1 43981 (by decide),
   (C1_numeric_roundtrip .big .little).2.2.2.1 (-2) (by decide) (by decide),
   (C1_numeric_roundtrip .little .big).2.2.2.2.1 1 (by decide),
   (C1_numeric_roundtrip .big .big).2.2.2.2.2.1 (-123456) (by decide) (by decide),
   (C1_numeric_roundtrip .little .little).2.2.2.2.2.2.1 81985529216486895 (by decide),
   (C1_numeric_roundtrip .big .little).2.2.2.2.2.2.2.1 (-3) (by decide) (by decide),
   (C1_numeric_roundtrip .little .big).2.2.2.2.2.2.2.2.1 15360 (by decide),
   (C1_numeric_roundtrip .big .little).2.2.2.2.2.2.2.2.2.1 1078530011 (by decide),
   (C1_numeric_roundtrip .little .little).2.2.2.2.2.2.2.2.2.2 4614256656552045848
     (by decide)⟩

/-- C2: encoding the unsigned 32-bit value 1 with byte order = little and
word order = big, then materializing via to_registers() (repack false),
yields exactly the two registers [0x0000, 0x0100]: the high word first and
each word's two bytes swapped. -/
theorem C2_worked_vector :
    ((mkBuilder Endian.little Endian.big false).add_32bit_uint 1).to_registers = [0, 256] := by
  decide

/-! ### Padding (claim C5) -/

theorem buildOf_cons_cons (a b : Nat) (t : List Nat) :
    buildOf (a :: b :: t) = [a, b] :: buildOf t := by
  unfold buildOf
  have h : (a :: b :: t).length % 2 = t.length % 2 := by simp; omega
  rw [h]
  rfl

theorem buildOf_last_odd :
    ∀ s : List Nat, s.length % 2 = 1 →
      ∃ x, s.getLast? = some x ∧ (buildOf s).getLast? = some [x, 0] := by
  refine twoStepInduction (by simp) ?_ ?_
  · intro a _
    exact ⟨a, rfl, rfl⟩
  · intro a b t ih hlen
    have ht : t.length % 2 = 1 := by simp at hlen; omega
    obtain ⟨x, hx1, hx2⟩ := ih ht
    refine ⟨x, ?_, ?_⟩
    · obtain ⟨y, t', rfl⟩ : ∃ y t', t = y :: t' := by
        cases t with
        | nil => simp at ht
        | cons y t' => exact ⟨y, t', rfl⟩
      rw [List.getLast?_cons_cons]
      exact hx1
    · rw [buildOf_cons_cons]
      obtain ⟨c, l', hcl⟩ : ∃ c l', buildOf t = c :: l' := by
        cases hbt : buildOf t with
        | nil => rw [hbt] at hx2; simp at hx2
        | cons c l' => exact ⟨c, l', rfl⟩
      rw [hcl] at hx2 ⊢
      rw [List.getLast?_cons_cons]
      exact hx2

/-- C5: for any builder whose accumulated fragments total an odd number of
bytes, build() returns exactly (total + 1) / 2 = ceil(total / 2) two-byte
chunks, and the final chunk is the last payload byte followed by a zero
second byte. -/
theorem C5_odd_padding (b : BinaryPayloadBuilder) (h : b.to_string.length % 2 = 1) :
    b.build.length = (b.to_string.length + 1) / 2 ∧
    ∃ x, b.to_string.getLast? = some x ∧ b.build.getLast? = some [x, 0] := by
  constructor
  · show (buildOf b.to_string).length = _
    unfold buildOf
    rw [chunk2_length]
    simp only [List.length_append, List.length_replicate]
    omega
  · exact buildOf_last_odd b.to_string h

/-- Witness for C5 on the one-fragment builder holding the single byte 5. -/
theorem C5_odd_padding_witness :
    (⟨[[5]], Endian.big, Endian.big, false⟩ : BinaryPayloadBuilder).to_string.length % 2 = 1 ∧
    (⟨[[5]], Endian.big, Endian.big, false⟩ : BinaryPayloadBuilder).build.length = 1 ∧
    (⟨[[5]], Endian.big, Endian.big, false⟩ : BinaryPayloadBuilder).build.getLast? =
      some [5, 0] := by
  have h := C5_odd_padding ⟨[[5]], Endian.big, Endian.big, false⟩ (by decide)
  refine ⟨by decide, h.1, ?_⟩
  obtain ⟨x, hx1, hx2⟩ := h.2
  have hx : x = 5 := by
    have h5 : (⟨[[5]], Endian.big, Endian.big, false⟩ :
        BinaryPayloadBuilder).to_string.getLast? = some 5 := rfl
    rw [h5] at hx1
    exact (Option.some.injEq _ _ ▸ hx1).symm
  rw [hx] at hx2
  exact hx2

/-! ### Pure materialize operations (claim C9) -/

theorem materialize_m_agree (b : BinaryPayloadBuilder) :
    b.to_string_m.1 = b.to_string ∧ b.build_m.1 = b.build ∧
    b.to_registers_m.1 = b.to_registers ∧ b.to_coils_m.1 = b.to_coils :=
  ⟨rfl, rfl, rfl, rfl⟩

/-- C9: the materialize method calls to_string (to_bytes), build,
to_registers and to_coils leave the builder state - in particular the
accumulated fragment list - unchanged, and repeating any of them on the
resulting state returns the identical value. -/
theorem C9_materialize_pure (b : BinaryPayloadBuilder) :
    (b.to_string_m.2 = b ∧ b.build_m.2 = b ∧ b.to_registers_m.2 = b ∧ b.to_coils_m.2 = b) ∧
    ((b.to_string_m.2).to_string_m.1 = b.to_string_m.1 ∧
      (b.build_m.2).build_m.1 = b.build_m.1 ∧
      (b.to_registers_m.2).to_registers_m.1 = b.to_registers_m.1 ∧
      (b.to_coils_m.2).to_coils_m.1 = b.to_coils_m.1) :=
  ⟨⟨rfl, rfl, rfl, rfl⟩, rfl, rfl, rfl, rfl⟩

/-! ### Decoder construction (claims C6, C10) -/

/-- C6: fromRegisters succeeds on every list of 16-bit register values and
fails with ParameterException exactly on a non-list argument such as a
single integer; likewise fromCoils on lists of booleans. -/
theorem C6_input_validation :
    (∀ (regs : List Nat) (bo wo : Endian), (∀ x ∈ regs, x < 2 ^ 16) →
      ∃ d, BinaryPayloadDecoder.fromRegisters (.ofList regs) bo wo = .ok d) ∧
    (∀ (n : Int) (bo wo : Endian),
      BinaryPayloadDecoder.fromRegisters (.ofScalar n) bo wo = .error .invalidInput) ∧
    (∀ (coils : List Bool) (bo wo : Endian),
      ∃ d, BinaryPayloadDecoder.fromCoils (.ofList coils) bo wo = .ok d) ∧
    (∀ (n : Int) (bo wo : Endian),
      BinaryPayloadDecoder.fromCoils (.ofScalar n) bo wo = .error .invalidInput) :=
  ⟨fun regs bo wo _ => ⟨mkDecoder (regsToBytes regs) bo wo, rfl⟩,
   fun _ _ _ => rfl,
   fun coils bo _ => ⟨fromCoilsList coils bo, rfl⟩,
   fun _ _ _ => rfl⟩

/-- Witness for C6 at concrete arguments. -/
theorem C6_input_validation_witness :
    (BinaryPayloadDecoder.fromRegisters (.ofList [1, 65535]) Endian.big Endian.big).isOk =
      true ∧
    BinaryPayloadDecoder.fromRegisters (.ofScalar 7) Endian.little Endian.big =
      .error .invalidInput ∧
    (BinaryPayloadDecoder.fromCoils (.ofList [true, false]) Endian.big Endian.big).isOk =
      true ∧
    BinaryPayloadDecoder.fromCoils (.ofScalar 7) Endian.little Endian.big =
      .error .invalidInput := by
  obtain ⟨d, hd⟩ := C6_input_validation.1 [1, 65535] Endian.big Endian.big (by decide)
  obtain ⟨d2, hd2⟩ := C6_input_validation.2.2.1 [true, false] Endian.big Endian.big
  exact ⟨by rw [hd]; rfl, C6_input_validation.2.1 7 Endian.little Endian.big,
    by rw [hd2]; rfl, C6_input_validation.2.2.2 7 Endian.little Endian.big⟩

/-- C10: fromCoils drops its wordorder argument: the decoder it returns is
the same for any two word-order arguments, and always carries the default
big word order. -/
theorem C10_fromCoils_ignores_wordorder (coils : PySeq Bool) (bo wo wo' : Endian) :
    BinaryPayloadDecoder.fromCoils coils bo wo = BinaryPayloadDecoder.fromCoils coils bo wo' ∧
    ∀ l : List Bool, ∃ d, BinaryPayloadDecoder.fromCoils (.ofList l) bo wo = .ok d ∧
      d.wordorder = Endian.big := by
  constructor
  · cases coils <;> rfl
  · intro l
    exact ⟨fromCoilsList l bo, rfl, rfl⟩

/-! ### Cursor invariant (claim C8) -/

/-- C8: every cursor-moving decoder operation other than reset advances
the cursor by exactly its byte width (1 for the 8-bit decodes and
decode_bits, 2/4/8 for the 16/32/64-bit decodes, size for decode_string,
the byte count for skip_bytes) and leaves the buffer and configuration
untouched; reset sets the cursor back to zero without altering the
buffer; and over any sequence of operations without a reset the cursor
never decreases. -/
theorem C8_cursor_invariant :
    (∀ (d : BinaryPayloadDecoder) (op : DOp), op ≠ DOp.rst →
      (d.stepOp op).pointer = d.pointer + op.width ∧ (d.stepOp op).payload = d.payload ∧
      (d.stepOp op).byteorder = d.byteorder ∧ (d.stepOp op).wordorder = d.wordorder) ∧
    (∀ d : BinaryPayloadDecoder, d.stepOp DOp.rst = { d with pointer := 0 }) ∧
    (∀ (ops : List DOp) (d : BinaryPayloadDecoder), DOp.rst ∉ ops →
      d.pointer ≤ (runOps ops d).pointer) := by
  have hstep : ∀ (d : BinaryPayloadDecoder) (op : DOp), op ≠ DOp.rst →
      (d.stepOp op).pointer = d.pointer + op.width ∧ (d.stepOp op).payload = d.payload ∧
      (d.stepOp op).byteorder = d.byteorder ∧ (d.stepOp op).wordorder = d.wordorder := by
    intro d op hop
    cases op <;> first
      | exact absurd rfl hop
      | exact ⟨rfl, rfl, rfl, rfl⟩
  refine ⟨hstep, fun d => rfl, ?_⟩
  intro ops
  induction ops with
  | nil => intro d _; exact le_rfl
  | cons op ops ih =>
    intro d hmem
    have hop : op ≠ DOp.rst := fun he => hmem (by rw [he]; exact List.mem_cons_self _ _)
    have h1 := (hstep d op hop).1
    have h2 := ih (d.stepOp op) (fun hin => hmem (List.mem_cons_of_mem _ hin))
    simp only [runOps]
    omega

/-- Witness for C8 at concrete operations and decoder states. -/
theorem C8_cursor_invariant_witness :
    ((mkDecoder [1, 2, 3] Endian.big Endian.big).stepOp DOp.d16u).pointer =
      0 + DOp.width DOp.d16u ∧
    (mkDecoder [9] Endian.big Endian.big).stepOp DOp.rst =
      mkDecoder [9] Endian.big Endian.big ∧
    (mkDecoder [] Endian.little Endian.little).pointer ≤
      (runOps [DOp.d8u, DOp.skip 3, DOp.dstr 2]
        (mkDecoder [] Endian.little Endian.little)).pointer :=
  ⟨(C8_cursor_invariant.1 (mkDecoder [1, 2, 3] Endian.big Endian.big) DOp.d16u
      (by decide)).1,
   C8_cursor_invariant.2.1 (mkDecoder [9] Endian.big Endian.big),
   C8_cursor_invariant.2.2 [DOp.d8u, DOp.skip 3, DOp.dstr 2]
     (mkDecoder [] Endian.little Endian.little) (by decide)⟩

theorem _unpack_words_ok_length (bo wo : Endian) (wc : Nat) (t : List Nat)
    (h : t.length = 2 * wc) :
    ∃ E, _unpack_words bo wo wc t = .ok E ∧ E.length = 2 * wc := by
  rw [_unpack_words, if_pos h]
  refine ⟨_, rfl, ?_⟩
  rw [flatten_packH_length]
  split
  · rw [List.length_reverse, List.length_map, chunk2_length, h]
    omega
  · rw [List.length_map, chunk2_length, h]
    omega

/-- C7 counterexample: with an empty buffer, decode_16bit_uint does not
silently return a truncated result - the slice is truncated to zero bytes
and `unpack` then raises `struct.error`. -/
theorem C7_counterexample :
    ((mkDecoder [] Endian.big Endian.big).decode_16bit_uint).1 =
      .error PackError.wrongSize := rfl

theorem unpack_B_error_iff (t : List Nat) :
    unpack_B t = .error .wrongSize ↔ t.length ≠ 1 := by
  rcases t with _ | ⟨a, _ | ⟨b, t⟩⟩ <;> simp [unpack_B]

theorem unpack_b8_error_iff (t : List Nat) :
    unpack_b8 t = .error .wrongSize ↔ t.length ≠ 1 := by
  rcases t with _ | ⟨a, _ | ⟨b, t⟩⟩ <;> simp [unpack_b8]

theorem unpack_H_error_iff (bo : Endian) (t : List Nat) :
    unpack_H bo t = .error .wrongSize ↔ t.length ≠ 2 := by
  cases bo <;> rcases t with _ | ⟨a, _ | ⟨b, _ | ⟨c, t⟩⟩⟩ <;> simp [unpack_H]

theorem except_map_error_iff {α β : Type} (x : Except PackError α) (f : α → β) :
    x.map f = .error .wrongSize ↔ x = .error .wrongSize := by
  cases x with
  | ok a => simp [Except.map]
  | error e => cases e; simp [Except.map]

/-- The shared word-based decode path (`_unpack_words` then an unsigned
`unpack("!...")` read of width `2 * wc`) fails with `struct.error`
exactly when the slice was truncated, i.e. when fewer than `2 * wc`
bytes remain past position `p`. -/
theorem words_underrun_iff (bo wo : Endian) (wc : Nat) (hwc : 0 < wc) (l : List Nat)
    (p : Nat) :
    ((_unpack_words bo wo wc ((l.drop p).take (2 * wc))).bind (unpack_bang (2 * wc)) =
      .error .wrongSize) ↔ l.length < p + 2 * wc := by
  have hlen : ((l.drop p).take (2 * wc)).length = min (2 * wc) (l.length - p) := by simp
  by_cases hfull : ((l.drop p).take (2 * wc)).length = 2 * wc
  · obtain ⟨E, hE, hlenE⟩ := _unpack_words_ok_length bo wo wc _ hfull
    rw [hE]
    simp only [Except.bind]
    rw [unpack_bang, if_pos hlenE]
    exact ⟨fun hcontr => absurd hcontr (by simp), fun hlt => absurd hlt (by omega)⟩
  · rw [_unpack_words, if_neg hfull]
    simp only [Except.bind]
    exact ⟨fun _ => by omega, fun _ => trivial⟩

/-- As `words_underrun_iff`, for the signed `unpack("!...")` read. -/
theorem words_underrun_int_iff (bo wo : Endian) (wc : Nat) (hwc : 0 < wc) (l : List Nat)
    (p : Nat) :
    ((_unpack_words bo wo wc ((l.drop p).take (2 * wc))).bind (unpack_bang_int (2 * wc)) =
      .error .wrongSize) ↔ l.length < p + 2 * wc := by
  have hlen : ((l.drop p).take (2 * wc)).length = min (2 * wc) (l.length - p) := by simp
  by_cases hfull : ((l.drop p).take (2 * wc)).length = 2 * wc
  · obtain ⟨E, hE, hlenE⟩ := _unpack_words_ok_length bo wo wc _ hfull
    rw [hE]
    simp only [Except.bind]
    rw [unpack_bang_int, if_pos hlenE]
    exact ⟨fun hcontr => absurd hcontr (by simp), fun hlt => absurd hlt (by omega)⟩
  · rw [_unpack_words, if_neg hfull]
    simp only [Except.bind]
    exact ⟨fun _ => by omega, fun _ => trivial⟩

/-- C7 amended: decode_string and decode_bits silently return a
truncated or empty result when fewer bytes remain than requested, and
never fail; but every fixed-width numeric decode operation - the 8, 16,
32 and 64-bit unsigned and signed integer decodes and the 16, 32 and
64-bit float decodes - fails with `struct.error` exactly when fewer
bytes remain than the type's byte width, because the truncated slice no
longer matches the unpack size. -/
theorem C7_amended_underrun (d : BinaryPayloadDecoder) (size : Nat) :
    (d.decode_string size).1 = (d.payload.drop d.pointer).take size ∧
    (d.decode_string size).1.length = min size (d.payload.length - d.pointer) ∧
    (d.decode_bits).1 = unpack_bitstring ((d.payload.drop d.pointer).take 1) ∧
    ((d.decode_16bit_uint).1 = .error .wrongSize ↔ d.payload.length < d.pointer + 2) ∧
    ((d.decode_32bit_uint).1 = .error .wrongSize ↔ d.payload.length < d.pointer + 4) ∧
    ((d.decode_8bit_uint).1 = .error .wrongSize ↔ d.payload.length < d.pointer + 1) ∧
    ((d.decode_8bit_int).1 = .error .wrongSize ↔ d.payload.length < d.pointer + 1) ∧
    ((d.decode_16bit_int).1 = .error .wrongSize ↔ d.payload.length < d.pointer + 2) ∧
    ((d.decode_16bit_float).1 = .error .wrongSize ↔ d.payload.length < d.pointer + 2) ∧
    ((d.decode_32bit_int).1 = .error .wrongSize ↔ d.payload.length < d.pointer + 4) ∧
    ((d.decode_32bit_float).1 = .error .wrongSize ↔ d.payload.length < d.pointer + 4) ∧
    ((d.decode_64bit_uint).1 = .error .wrongSize ↔ d.payload.length < d.pointer + 8) ∧
    ((d.decode_64bit_int).1 = .error .wrongSize ↔ d.payload.length < d.pointer + 8) ∧
    ((d.decode_64bit_float).1 = .error .wrongSize ↔ d.payload.length < d.pointer + 8) := by
  refine ⟨?_, ?_, ?_, ?_, ?_, ?_, ?_, ?_, ?_, ?_, ?_, ?_, ?_, ?_⟩
  · simp [BinaryPayloadDecoder.decode_string, Nat.add_sub_cancel]
  · simp [BinaryPayloadDecoder.decode_string, Nat.add_sub_cancel]
  · simp [BinaryPayloadDecoder.decode_bits, Nat.add_sub_cancel]
  · simp only [BinaryPayloadDecoder.decode_16bit_uint]
    rw [show d.pointer + 2 - 2 = d.pointer from by omega, unpack_H_error_iff]
    simp only [List.length_take, List.length_drop]
    omega
  · simp only [BinaryPayloadDecoder.decode_32bit_uint]
    rw [show d.pointer + 4 - 4 = d.pointer from by omega]
    exact words_underrun_iff d.byteorder d.wordorder 2 (by omega) d.payload d.pointer
  · simp only [BinaryPayloadDecoder.decode_8bit_uint]
    rw [show d.pointer + 1 - 1 = d.pointer from by omega, unpack_B_error_iff]
    simp only [List.length_take, List.length_drop]
    omega
  · simp only [BinaryPayloadDecoder.decode_8bit_int]
    rw [show d.pointer + 1 - 1 = d.pointer from by omega, unpack_b8_error_iff]
    simp only [List.length_take, List.length_drop]
    omega
  · simp only [BinaryPayloadDecoder.decode_16bit_int]
    rw [show d.pointer + 2 - 2 = d.pointer from by omega, unpack_h16,
      except_map_error_iff, unpack_H_error_iff]
    simp only [List.length_take, List.length_drop]
    omega
  · simp only [BinaryPayloadDecoder.decode_16bit_float]
    rw [show d.pointer + 2 - 2 = d.pointer from by omega]
    exact words_underrun_iff d.byteorder d.wordorder 1 (by omega) d.payload d.pointer
  · simp only [BinaryPayloadDecoder.decode_32bit_int]
    rw [show d.pointer + 4 - 4 = d.pointer from by omega]
    exact words_underrun_int_iff d.byteorder d.wordorder 2 (by omega) d.payload d.pointer
  · simp only [BinaryPayloadDecoder.decode_32bit_float]
    rw [show d.pointer + 4 - 4 = d.pointer from by omega]
    exact words_underrun_iff d.byteorder d.wordorder 2 (by omega) d.payload d.pointer
  · simp only [BinaryPayloadDecoder.decode_64bit_uint]
    rw [show d.pointer + 8 - 8 = d.pointer from by omega]
    exact words_underrun_iff d.byteorder d.wordorder 4 (by omega) d.payload d.pointer
  · simp only [BinaryPayloadDecoder.decode_64bit_int]
    rw [show d.pointer + 8 - 8 = d.pointer from by omega]
    exact words_underrun_int_iff d.byteorder d.wordorder 4 (by omega) d.payload d.pointer
  · simp only [BinaryPayloadDecoder.decode_64bit_float]
    rw [show d.pointer + 8 - 8 = d.pointer from by omega]
    exact words_underrun_iff d.byteorder d.wordorder 4 (by omega) d.payload d.pointer

theorem byteBitsLSB_length (x : Nat) : (byteBitsLSB x).length = 8 := rfl

theorem coils_of_bytes :
    ∀ l : List Nat, l.length % 2 = 0 → (∀ x ∈ l, x < 256) →
      (((chunk2 l).map beToNat).map bits16MSB).flatten =
        (l.map (fun x => (byteBitsLSB x).reverse)).flatten := by
  refine twoStepInduction (by simp [chunk2]) (by simp) ?_
  intro a b l ih hlen hlt
  have hb : b < 256 := hlt b (by simp)
  simp only [chunk2, List.map_cons, List.flatten_cons, beToNat_pair]
  rw [bits16_split a b hb, ih (by simp at hlen ⊢; omega) (fun x hx => hlt x (by simp [hx])),
    List.append_assoc]

theorem chunk8_map_blocks {α : Type} (f : α → List Bool) (hf : ∀ x, (f x).length = 8) :
    ∀ l : List α, chunk8 ((l.map f).flatten) = l.map f := by
  intro l
  induction l with
  | nil => rfl
  | cons x l ih =>
    simp only [List.map_cons, List.flatten_cons]
    rw [chunk8_block _ _ (hf x), ih]

set_option maxRecDepth 1000000 in
theorem pack_bitstring_inv_byte : ∀ x < 256, pack_bitstring (byteBitsLSB x) = [x] := by
  decide

theorem decodeBitsRun_eq :
    ∀ (k : Nat) (l : List Nat) (j : Nat) (bo wo : Endian), j + k ≤ l.length →
      decodeBitsRun k ⟨l, j, bo, wo⟩ = (((l.drop j).take k).map byteBitsLSB).flatten := by
  intro k
  induction k with
  | zero => intro l j bo wo _; simp [decodeBitsRun]
  | succ k ih =>
    intro l j bo wo hjk
    obtain ⟨x, t, hxt⟩ : ∃ x t, l.drop j = x :: t := by
      cases hd : l.drop j with
      | nil =>
        have := List.length_drop j l
        rw [hd] at this
        simp at this
        omega
      | cons x t => exact ⟨x, t, rfl⟩
    have hdropsucc : l.drop (j + 1) = t := by
      rw [← List.drop_drop 1 j l, hxt]
      rfl
    simp only [decodeBitsRun, BinaryPayloadDecoder.decode_bits, Nat.add_sub_cancel]
    rw [hxt, ih l (j + 1) bo wo (by omega), hdropsucc]
    simp [unpack_bitstring, List.take_succ_cons]

theorem pack_bitstring_eq (bs : List Bool) :
    pack_bitstring bs =
      (chunk8 (List.replicate ((8 - bs.length % 8) % 8) false ++ bs)).map bitsToByteLSB := rfl

theorem fromCoilsList_mul8 (coils : List Bool) (bo : Endian) (h : coils.length % 8 = 0) :
    fromCoilsList coils bo =
      mkDecoder (((chunk8 coils).map (fun chunk => pack_bitstring chunk.reverse)).flatten)
        bo Endian.big := by
  simp only [fromCoilsList, BinaryPayloadDecoder.bit_chunks, h, ne_eq, not_true_eq_false,
    if_false]

theorem flatten_singletons : ∀ l : List Nat, (l.map (fun x => [x])).flatten = l := by
  intro l
  induction l with
  | nil => rfl
  | cons y ys ih => simp only [List.map_cons, List.flatten_cons, List.singleton_append, ih]

/-- The full bit pipeline: add_bits, to_coils, from_coils, then one
decode_bits call per buffer byte, returns the left-padded input. -/
theorem bitsPipeline (bs : List Bool) (bo wo bo' : Endian) :
    decodeBitsRun ((List.replicate ((8 - bs.length % 8) % 8) false ++ bs).length / 8)
        (fromCoilsList ((mkBuilder bo wo false).add_bits bs).to_coils bo') =
      List.replicate ((8 - bs.length % 8) % 8) false ++ bs := by
  obtain ⟨padded, hpadded⟩ :
      ∃ p, List.replicate ((8 - bs.length % 8) % 8) false ++ bs = p := ⟨_, rfl⟩
  rw [hpadded]
  have hpadlen : padded.length % 8 = 0 := by
    rw [← hpadded]
    simp only [List.length_append, List.length_replicate]
    omega
  obtain ⟨hchunks, hflat, hcount⟩ := chunk8_dvd padded (Nat.dvd_of_mod_eq_zero hpadlen)
  have hBalt : pack_bitstring bs = (chunk8 padded).map bitsToByteLSB := by
    rw [pack_bitstring_eq, hpadded]
  obtain ⟨B, hBdef⟩ : ∃ B, (chunk8 padded).map bitsToByteLSB = B := ⟨_, rfl⟩
  rw [hBdef] at hBalt
  have hBlt : ∀ x ∈ B, x < 256 := by
    intro x hx
    rw [← hBdef] at hx
    obtain ⟨c, hc, rfl⟩ := List.mem_map.mp hx
    exact bitsToByteLSB_lt_of_len c (hchunks c hc)
  have hBlen : B.length = padded.length / 8 := by
    rw [← hBdef, List.length_map, hcount]
  have hstring : ((mkBuilder bo wo false).add_bits bs).to_string = B := by
    show ((([] : List (List Nat)) ++ [pack_bitstring bs]).flatten) = B
    simp only [List.nil_append, List.flatten_cons, List.flatten_nil, List.append_nil]
    exact hBalt
  obtain ⟨B2, hB2def⟩ : ∃ B2, B ++ List.replicate (B.length % 2) 0 = B2 := ⟨_, rfl⟩
  have hB2lt : ∀ x ∈ B2, x < 256 := by
    intro x hx
    rw [← hB2def] at hx
    rcases List.mem_append.mp hx with hx | hx
    · exact hBlt x hx
    · rw [List.eq_of_mem_replicate hx]
      omega
  have hB2even : B2.length % 2 = 0 := by
    rw [← hB2def]
    simp only [List.length_append, List.length_replicate]
    omega
  have hbuild : ((mkBuilder bo wo false).add_bits bs).build = chunk2 B2 := by
    show buildOf ((mkBuilder bo wo false).add_bits bs).to_string = chunk2 B2
    rw [hstring]
    unfold buildOf
    rw [hB2def]
  have hregs : ((mkBuilder bo wo false).add_bits bs).to_registers = (chunk2 B2).map beToNat := by
    show (((mkBuilder bo wo false).add_bits bs).build.map _) = _
    rw [hbuild]
    exact List.map_congr_left (fun c _ => by simp [mkBuilder, BinaryPayloadBuilder.add_bits])
  have hcoils : ((mkBuilder bo wo false).add_bits bs).to_coils =
      (B2.map (fun x => (byteBitsLSB x).reverse)).flatten := by
    show ((((mkBuilder bo wo false).add_bits bs).to_registers).map bits16MSB).flatten = _
    rw [hregs]
    exact coils_of_bytes B2 hB2even hB2lt
  have hccount : ∀ l : List Nat,
      ((l.map (fun x => (byteBitsLSB x).reverse)).flatten).length = 8 * l.length := by
    intro l
    induction l with
    | nil => rfl
    | cons y ys ih =>
      simp only [List.map_cons, List.flatten_cons, List.length_append, ih, List.length_cons,
        List.length_reverse, byteBitsLSB_length]
      omega
  have hpayload : fromCoilsList ((mkBuilder bo wo false).add_bits bs).to_coils bo' =
      mkDecoder B2 bo' Endian.big := by
    rw [hcoils, fromCoilsList_mul8 _ _ (by rw [hccount]; omega)]
    rw [chunk8_map_blocks _ (fun x => by
      rw [List.length_reverse, byteBitsLSB_length]) B2, List.map_map]
    have hmap : List.map ((fun chunk => pack_bitstring chunk.reverse) ∘
        fun x => (byteBitsLSB x).reverse) B2 = List.map (fun x => [x]) B2 := by
      refine List.map_congr_left (fun x hx => ?_)
      simp only [Function.comp_apply, List.reverse_reverse]
      exact pack_bitstring_inv_byte x (hB2lt x hx)
    rw [hmap, flatten_singletons]
  rw [hpayload]
  have hrun := decodeBitsRun_eq (padded.length / 8) B2 0 bo' Endian.big (by
    rw [← hB2def]
    simp only [List.length_append, List.length_replicate]
    omega)
  rw [show mkDecoder B2 bo' Endian.big = ⟨B2, 0, bo', Endian.big⟩ from rfl, hrun,
    List.drop_zero]
  have htake : B2.take (padded.length / 8) = B := by
    rw [← hB2def, ← hBlen, List.take_left]
  rw [htake, ← hBdef, List.map_map]
  have hinv : List.map (byteBitsLSB ∘ bitsToByteLSB) (chunk8 padded) =
      List.map id (chunk8 padded) :=
    List.map_congr_left (fun c hc => bits_inv8_of_len c (hchunks c hc))
  rw [hinv, List.map_id, hflat]

/-- C3: encoding any boolean sequence whose length is not a multiple of 8
via add_bits, materializing with to_coils(), constructing a decoder with
from_coils on that coil list and reading it back with decode_bits (one
call per buffer byte) reproduces the original sequence left-padded with
false to the next multiple of 8; the second conjunct ties the decoder
used here to from_coils itself. -/
theorem C3_bit_roundtrip (bs : List Bool) (bo wo bo' wo' : Endian) (h : bs.length % 8 ≠ 0) :
    decodeBitsRun ((bs.length + 7) / 8)
        (fromCoilsList ((mkBuilder bo wo false).add_bits bs).to_coils bo') =
      List.replicate (8 - bs.length % 8) false ++ bs ∧
    BinaryPayloadDecoder.fromCoils
        (.ofList ((mkBuilder bo wo false).add_bits bs).to_coils) bo' wo' =
      .ok (fromCoilsList ((mkBuilder bo wo false).add_bits bs).to_coils bo') := by
  constructor
  · have key := bitsPipeline bs bo wo bo'
    have harith2 : (List.replicate ((8 - bs.length % 8) % 8) false ++ bs).length / 8 =
        (bs.length + 7) / 8 := by
      simp only [List.length_append, List.length_replicate]
      omega
    have harith1 : (8 - bs.length % 8) % 8 = 8 - bs.length % 8 := by omega
    rw [harith2, harith1] at key
    exact key
  · rfl

/-- Witness for C3 on the spec's worked example [true, false, true]. -/
theorem C3_bit_roundtrip_witness :
    decodeBitsRun 1 (fromCoilsList ((mkBuilder Endian.big Endian.big false).add_bits
        [true, false, true]).to_coils Endian.little) =
      [false, false, false, false, false, true, false, true] ∧
    BinaryPayloadDecoder.fromCoils (.ofList ((mkBuilder Endian.big Endian.big false).add_bits
        [true, false, true]).to_coils) Endian.little Endian.big =
      .ok (fromCoilsList ((mkBuilder Endian.big Endian.big false).add_bits
        [true, false, true]).to_coils Endian.little) := by
  have h := C3_bit_roundtrip [true, false, true] Endian.big Endian.big Endian.little
    Endian.big (by decide)
  exact ⟨h.1, h.2⟩

theorem to_registers_lt (b : BinaryPayloadBuilder)
    (hwf : ∀ frag ∈ b.payload, ∀ x ∈ frag, x < 256) :
    ∀ r ∈ b.to_registers, r < 2 ^ 16 := by
  intro r hr
  obtain ⟨chunk, hc, rfl⟩ := List.mem_map.mp hr
  have heven : (b.to_string ++ List.replicate (b.to_string.length % 2) 0).length % 2 = 0 := by
    simp only [List.length_append, List.length_replicate]
    omega
  have hc' : chunk ∈ chunk2 (b.to_string ++ List.replicate (b.to_string.length % 2) 0) := hc
  obtain ⟨x, y, rfl, hx, hy⟩ := chunk2_shape _ heven chunk hc'
  have hmem : ∀ z, z ∈ b.to_string ++ List.replicate (b.to_string.length % 2) 0 →
      z < 256 := by
    intro z hz
    rcases List.mem_append.mp hz with hz | hz
    · obtain ⟨frag, hf, hzf⟩ := List.mem_flatten.mp hz
      exact hwf frag hf z hzf
    · rw [List.eq_of_mem_replicate hz]
      omega
  have hx' := hmem x hx
  have hy' := hmem y hy
  have h1 : beToNat [x, y] < 2 ^ 16 := by
    rw [beToNat_pair]
    omega
  have h2 : beToNat ([x, y].reverse) < 2 ^ 16 := by
    rw [show ([x, y] : List Nat).reverse = [y, x] from rfl, beToNat_pair]
    omega
  split
  · split
    · exact h1
    · exact h2
  · exact h1

theorem map_beToNat_natToBE (l : List Nat) (h : ∀ r ∈ l, r < 256 ^ 2) :
    ((l.map (natToBE 2)).map beToNat) = l := by
  induction l with
  | nil => rfl
  | cons a t ih =>
    simp only [List.map_cons, List.cons.injEq]
    exact ⟨beToNat_natToBE 2 a (h a (by simp)), ih (fun r hr => h r (by simp [hr]))⟩

/-- C4: for any builder buffer contents (well-formed bytes),
from_registers on the list returned by to_registers() succeeds and yields
a decoder whose flattened byte buffer re-reads (per the fixed big-endian
register convention) as the identical register list; and for any boolean
list whose length is already a multiple of 8, the to_coils()/from_coils
composition followed by decode_bits reproduces the identical boolean
list. -/
theorem C4_register_coil_reversibility :
    (∀ (b : BinaryPayloadBuilder) (bo wo : Endian),
      (∀ frag ∈ b.payload, ∀ x ∈ frag, x < 256) →
      BinaryPayloadDecoder.fromRegisters (.ofList b.to_registers) bo wo =
        .ok (mkDecoder (regsToBytes b.to_registers) bo wo) ∧
      (chunk2 (regsToBytes b.to_registers)).map beToNat = b.to_registers) ∧
    (∀ (bs : List Bool) (bo wo bo' : Endian), bs.length % 8 = 0 →
      decodeBitsRun (bs.length / 8)
        (fromCoilsList ((mkBuilder bo wo false).add_bits bs).to_coils bo') = bs) := by
  constructor
  · intro b bo wo hwf
    refine ⟨rfl, ?_⟩
    have hlt := to_registers_lt b hwf
    have hlt2 : ∀ r ∈ b.to_registers, r < 256 ^ 2 := by
      intro r hr
      have := hlt r hr
      omega
    have hpairs : ∀ x ∈ b.to_registers, ∃ a c, natToBE 2 x = [a, c] :=
      fun x _ => ⟨x / 256 % 256, x % 256, natToBE2_eq x⟩
    have hblocks := chunk2_blocks (natToBE 2) b.to_registers hpairs
    show (chunk2 ((b.to_registers.map (natToBE 2)).flatten)).map beToNat = b.to_registers
    rw [hblocks]
    exact map_beToNat_natToBE b.to_registers hlt2
  · intro bs bo wo bo' h8
    have key := bitsPipeline bs bo wo bo'
    have hz : (8 - bs.length % 8) % 8 = 0 := by omega
    rw [hz] at key
    exact key

/-- Witness for C4 at a three-byte builder and an 8-bit boolean list. -/
theorem C4_register_coil_reversibility_witness :
    BinaryPayloadDecoder.fromRegisters
        (.ofList (⟨[[1, 2], [3]], Endian.little, Endian.big, false⟩ :
          BinaryPayloadBuilder).to_registers) Endian.big Endian.big =
      .ok (mkDecoder (regsToBytes (⟨[[1, 2], [3]], Endian.little, Endian.big, false⟩ :
          BinaryPayloadBuilder).to_registers) Endian.big Endian.big) ∧
    (chunk2 (regsToBytes (⟨[[1, 2], [3]], Endian.little, Endian.big, false⟩ :
        BinaryPayloadBuilder).to_registers)).map beToNat =
      (⟨[[1, 2], [3]], Endian.little, Endian.big, false⟩ :
        BinaryPayloadBuilder).to_registers ∧
    decodeBitsRun 1 (fromCoilsList ((mkBuilder Endian.big Endian.big false).add_bits
        [true, false, true, false, false, false, false, true]).to_coils Endian.little) =
      [true, false, true, false, false, false, false, true] := by
  have h1 := C4_register_coil_reversibility.1 ⟨[[1, 2], [3]], Endian.little, Endian.big, false⟩
    Endian.big Endian.big (by decide)
  exact ⟨h1.1, h1.2, C4_register_coil_reversibility.2
    [true, false, true, false, false, false, false, true] Endian.big Endian.big Endian.little
    (by decide)⟩
